import Mathlib

/-!
# Verification of the waiting-queue core of `queue_service.py`

This file gives a shallow embedding of the queue subsystem of the
doctor-waitlist application and proves the stated properties of its
position ledger, wait-time estimator, notification sweep and token
resolver.

The `queue_entries` table is modelled as a `List QueueEntry`; every SQL
`UPDATE ... WHERE c` becomes a `List.map` that rewrites exactly the rows
satisfying `c`, `SELECT ... WHERE id = ?` becomes `List.find?`, and the
wall clock, the AUTOINCREMENT row id and the random token are passed in
as explicit arguments.  Timestamps are abstract `Nat` clock readings.
-/

set_option maxHeartbeats 1000000

/-- A row of the `queue_entries` table (schema in `database.py`,
`init_db`): id (INTEGER PRIMARY KEY), patient/appointment/doctor
references, position, status (default `waiting`), the three timestamps,
quoted wait, the two outside-waiting flags (default 0), the unique
token and free-text notes. -/
structure QueueEntry where
  id : Nat
  patient_id : Nat
  appointment_id : Option Nat
  doctor_id : Option Nat
  position : Int
  status : String
  checked_in_at : Nat
  called_in_at : Option Nat
  completed_at : Option Nat
  quoted_wait_minutes : Option Int
  waiting_outside : Bool
  outside_notified : Bool
  token : String
  notes : Option String
  deriving DecidableEq

/-- Python truthiness of an optional integer (`if quoted_wait:`):
`None` and `0` are falsy, every other integer is truthy. -/
def intTruthy : Option Int → Bool
  | none => false
  | some q => q != 0

/-- `calculate_wait_time(position, quoted_wait=None)` from
`queue_service.py`: `if quoted_wait: return quoted_wait` (Python
truthiness, so a zero quote falls through), else
`max(0, (position - 1) * 15 + 5)`. -/
def calculate_wait_time (position : Int) (quoted_wait : Option Int) : Int :=
  if intTruthy quoted_wait then quoted_wait.getD 0
  else max 0 ((position - 1) * 15 + 5)

/-- `SELECT MAX(position) ...` over a list of positions: `none` models
SQL NULL on the empty set. -/
def maxPos? : List Int → Option Int
  | [] => none
  | p :: ps =>
    match maxPos? ps with
    | none => some p
    | some m => some (max p m)

/-- The positions of the rows with `status = 'waiting'`. -/
def waitingPositions (db : List QueueEntry) : List Int :=
  (db.filter (fun x => x.status == "waiting")).map (fun x => x.position)

/-- `add_to_queue` from `queue_service.py`: next position is
`MAX(position) WHERE status = 'waiting'` (NULL coalesced to 0) plus 1;
a fresh row is inserted with the schema defaults
(`status = 'waiting'`, flags 0, timestamps NULL).  The fresh row id
(AUTOINCREMENT) and token (`generate_token()`) are explicit arguments.
Returns the updated table, the assigned position and the estimated
wait returned to the caller. -/
def add_to_queue (db : List QueueEntry) (patient_id : Nat)
    (appointment_id : Option Nat) (quoted_wait_minutes : Option Int)
    (notes : Option String) (doctor_id : Option Nat)
    (entry_id : Nat) (token : String) (now : Nat) :
    List QueueEntry × Int × Int :=
  let next_position : Int := (maxPos? (waitingPositions db)).getD 0 + 1
  let entry : QueueEntry := {
    id := entry_id
    patient_id := patient_id
    appointment_id := appointment_id
    doctor_id := doctor_id
    position := next_position
    status := "waiting"
    checked_in_at := now
    called_in_at := none
    completed_at := none
    quoted_wait_minutes := quoted_wait_minutes
    waiting_outside := false
    outside_notified := false
    token := token
    notes := notes }
  (db ++ [entry], next_position,
    calculate_wait_time next_position quoted_wait_minutes)

/-- `SELECT ... FROM queue_entries WHERE id = ?` followed by
`fetchone()`: the first row with the given primary key. -/
def findById (db : List QueueEntry) (entry_id : Nat) : Option QueueEntry :=
  db.find? (fun x => x.id == entry_id)

/-- Per-row effect of the first UPDATE in `update_queue_position` when
moving up: `SET position = position + 1 WHERE position >= new AND
position < old AND status = 'waiting' AND id != entry_id`. -/
def shiftUpRow (entry_id : Nat) (old_position new_position : Int)
    (x : QueueEntry) : QueueEntry :=
  if new_position ≤ x.position ∧ x.position < old_position ∧
      x.status = "waiting" ∧ x.id ≠ entry_id then
    { x with position := x.position + 1 }
  else x

/-- Per-row effect of the first UPDATE in `update_queue_position` when
moving down: `SET position = position - 1 WHERE position > old AND
position <= new AND status = 'waiting' AND id != entry_id`. -/
def shiftDownRow (entry_id : Nat) (old_position new_position : Int)
    (x : QueueEntry) : QueueEntry :=
  if old_position < x.position ∧ x.position ≤ new_position ∧
      x.status = "waiting" ∧ x.id ≠ entry_id then
    { x with position := x.position - 1 }
  else x

/-- Per-row effect of the final UPDATE in `update_queue_position`:
`SET position = ? WHERE id = ?`. -/
def setPosRow (entry_id : Nat) (new_position : Int)
    (x : QueueEntry) : QueueEntry :=
  if x.id = entry_id then { x with position := new_position } else x

/-- `update_queue_position(entry_id, new_position)` from
`queue_service.py`.  Looks the row up by id only (no status filter);
returns `(db, false)` when no row exists, `(db, true)` when the stored
position already equals `new_position`, and otherwise shifts the
intervening waiting rows by one and writes `new_position` on the row
itself. -/
def update_queue_position (db : List QueueEntry) (entry_id : Nat)
    (new_position : Int) : List QueueEntry × Bool :=
  match findById db entry_id with
  | none => (db, false)
  | some e =>
    let old_position := e.position
    if old_position = new_position then (db, true)
    else
      let shifted :=
        if new_position < old_position then
          db.map (shiftUpRow entry_id old_position new_position)
        else
          db.map (shiftDownRow entry_id old_position new_position)
      (shifted.map (setPosRow entry_id new_position), true)

/-- Per-row effect of the first UPDATE in `remove_from_queue`:
`SET status = ?, completed_at = ?, called_in_at =
COALESCE(called_in_at, ?) WHERE id = ?`. -/
def stampRow (entry_id : Nat) (status : String) (now : Nat)
    (x : QueueEntry) : QueueEntry :=
  if x.id = entry_id then
    { x with status := status, completed_at := some now,
             called_in_at := some (x.called_in_at.getD now) }
  else x

/-- Per-row effect of the second UPDATE in `remove_from_queue`:
`SET position = position - 1 WHERE position > ? AND
status = 'waiting'`. -/
def closeGapRow (position : Int) (x : QueueEntry) : QueueEntry :=
  if x.position > position ∧ x.status = "waiting" then
    { x with position := x.position - 1 }
  else x

/-- `remove_from_queue(entry_id, status='completed')` from
`queue_service.py`.  Looks the row up by id only; stamps
`status`, `completed_at = now` and
`called_in_at = COALESCE(called_in_at, now)` on it, then decrements
the position of every waiting row strictly beyond the stored
position. -/
def remove_from_queue (db : List QueueEntry) (entry_id : Nat)
    (status : String) (now : Nat) : List QueueEntry × Bool :=
  match findById db entry_id with
  | none => (db, false)
  | some e =>
    let position := e.position
    let stamped := db.map (stampRow entry_id status now)
    (stamped.map (closeGapRow position), true)

/-- `mark_called_in(entry_id)` from `queue_service.py`: unconditional
`SET called_in_at = ? WHERE id = ?` with the current time. -/
def mark_called_in (db : List QueueEntry) (entry_id : Nat) (now : Nat) :
    List QueueEntry :=
  db.map (fun x =>
    if x.id = entry_id then { x with called_in_at := some now } else x)

/-- `update_waiting_outside(entry_id, waiting_outside)` from
`queue_service.py`: sets the flag on the row and returns `True`. -/
def update_waiting_outside (db : List QueueEntry) (entry_id : Nat)
    (flag : Bool) : List QueueEntry × Bool :=
  (db.map (fun x =>
    if x.id = entry_id then { x with waiting_outside := flag } else x),
    true)

/-- `mark_notified(entry_id)` from `queue_service.py`:
`SET outside_notified = 1 WHERE id = ?`. -/
def mark_notified (db : List QueueEntry) (entry_id : Nat) :
    List QueueEntry :=
  db.map (fun x =>
    if x.id = entry_id then { x with outside_notified := true } else x)

/-- `get_patients_needing_notification` from `queue_service.py`: the
rows with `status = 'waiting' AND waiting_outside = 1 AND
outside_notified = 0 AND position <= threshold`; the threshold is read
from the `settings` table and is passed here as an argument. -/
def get_patients_needing_notification (db : List QueueEntry)
    (threshold : Int) : List QueueEntry :=
  db.filter (fun x =>
    x.status == "waiting" && x.waiting_outside && !x.outside_notified &&
      x.position ≤ threshold)

/-- `get_queue_entry_by_token(token)` from `queue_service.py`: the
first row with `token = ? AND status = 'waiting'`, or `None`. -/
def get_queue_entry_by_token (db : List QueueEntry) (token : String) :
    Option QueueEntry :=
  db.find? (fun x => x.token == token && x.status == "waiting")

/-- A concrete waiting row used in closed evaluations. -/
def exWaiting : QueueEntry := {
  id := 1
  patient_id := 10
  appointment_id := none
  doctor_id := none
  position := 1
  status := "waiting"
  checked_in_at := 0
  called_in_at := none
  completed_at := none
  quoted_wait_minutes := none
  waiting_outside := false
  outside_notified := false
  token := "tokA"
  notes := none }

/-- A concrete row already in the terminal state `completed`. -/
def exCompleted : QueueEntry :=
  { exWaiting with
    id := 2
    status := "completed"
    token := "tokB"
    completed_at := some 5 }

/-- A concrete waiting row flagged as waiting outside, not yet
notified. -/
def exOutside : QueueEntry :=
  { exWaiting with id := 3, token := "tokC", waiting_outside := true }

/-- A concrete waiting-outside row that was already notified. -/
def exNotified : QueueEntry :=
  { exOutside with id := 4, token := "tokD", outside_notified := true }

/-- Number of rows of the table satisfying a decidable predicate. -/
def cnt (P : QueueEntry → Prop) [DecidablePred P] : List QueueEntry → Nat
  | [] => 0
  | x :: xs => (if P x then 1 else 0) + cnt P xs

/-- The ids of the rows are pairwise distinct: `id` is the table's
INTEGER PRIMARY KEY, so SQLite guarantees this for every reachable
table state. -/
def NodupIds (db : List QueueEntry) : Prop :=
  (db.map (fun x => x.id)).Nodup

/-- The tokens of the rows are pairwise distinct: the `token` column
carries a UNIQUE constraint in the schema. -/
def NodupTokens (db : List QueueEntry) : Prop :=
  (db.map (fun x => x.token)).Nodup

instance (db : List QueueEntry) : Decidable (NodupIds db) := by
  unfold NodupIds
  infer_instance

instance (db : List QueueEntry) : Decidable (NodupTokens db) := by
  unfold NodupTokens
  infer_instance

/-- Number of waiting rows. -/
def numWaiting (db : List QueueEntry) : Nat :=
  cnt (fun x => x.status = "waiting") db

/-- Number of waiting rows at a given position. -/
def posCount (db : List QueueEntry) (p : Int) : Nat :=
  cnt (fun x => x.status = "waiting" ∧ x.position = p) db

/-- Invariant I1 (density): every position in `1..numWaiting` is held
by exactly one waiting row and no waiting row sits outside that range,
i.e. the multiset of waiting positions is exactly the set `{1..N}`. -/
def DensePositions (db : List QueueEntry) : Prop :=
  ∀ p : Int, posCount db p =
    if 1 ≤ p ∧ p ≤ (numWaiting db : Int) then 1 else 0

/-- The position assigned to the next check-in. -/
def nextPos (db : List QueueEntry) : Int :=
  (maxPos? (waitingPositions db)).getD 0 + 1

/-- The row inserted by `add_to_queue` (schema defaults filled in). -/
def newRow (db : List QueueEntry) (patient_id : Nat)
    (appointment_id : Option Nat) (quoted_wait_minutes : Option Int)
    (notes : Option String) (doctor_id : Option Nat)
    (entry_id : Nat) (token : String) (now : Nat) : QueueEntry := {
  id := entry_id
  patient_id := patient_id
  appointment_id := appointment_id
  doctor_id := doctor_id
  position := nextPos db
  status := "waiting"
  checked_in_at := now
  called_in_at := none
  completed_at := none
  quoted_wait_minutes := quoted_wait_minutes
  waiting_outside := false
  outside_notified := false
  token := token
  notes := notes }

/-- The per-row effect of a successful move as the specification
words it (claim C2): the moved row is reassigned to `new_position`;
when moving up, every other waiting row with
`new_position <= position < old_position` increments by 1; when
moving down, every other waiting row with
`old_position < position <= new_position` decrements by 1; every
other row is unchanged. -/
def moveRowSpec (entry_id : Nat) (old_position new_position : Int)
    (x : QueueEntry) : QueueEntry :=
  if x.id = entry_id then { x with position := new_position }
  else if x.status = "waiting" ∧ new_position < old_position ∧
      new_position ≤ x.position ∧ x.position < old_position then
    { x with position := x.position + 1 }
  else if x.status = "waiting" ∧ old_position < new_position ∧
      old_position < x.position ∧ x.position ≤ new_position then
    { x with position := x.position - 1 }
  else x

/-- A second concrete waiting row, at position 2. -/
def exWaiting2 : QueueEntry :=
  { exWaiting with
    id := 5
    position := 2
    token := "tokE" }

/-- The per-row effect of `remove_from_queue` on an existing row, as
the specification words it: the target row gets the terminal status,
`completed_at = now` and `called_in_at` filled only if it was unset;
every waiting row strictly beyond the target's former position
decrements by 1; every other row is unchanged. -/
def removeRowSpec (entry_id : Nat) (old_position : Int)
    (outcome : String) (now : Nat) (x : QueueEntry) : QueueEntry :=
  if x.id = entry_id then
    { x with status := outcome, completed_at := some now,
             called_in_at := some (x.called_in_at.getD now) }
  else if x.status = "waiting" ∧ old_position < x.position then
    { x with position := x.position - 1 }
  else x

/-- A ledger operation of claim C1: a check-in, a move, or a
removal. -/
inductive LedgerOp where
  | insert (patient_id : Nat) (appointment_id : Option Nat)
      (quoted_wait_minutes : Option Int) (notes : Option String)
      (doctor_id : Option Nat) (entry_id : Nat) (token : String)
      (now : Nat)
  | move (entry_id : Nat) (new_position : Int)
  | remove (entry_id : Nat) (outcome : String) (now : Nat)

/-- Running one ledger operation against the table. -/
def applyOp (db : List QueueEntry) : LedgerOp → List QueueEntry
  | .insert pid ap q nts did eid tok now =>
    (add_to_queue db pid ap q nts did eid tok now).1
  | .move eid np => (update_queue_position db eid np).1
  | .remove eid outcome now => (remove_from_queue db eid outcome now).1

/-- Running a script of ledger operations. -/
def applyOps (db : List QueueEntry) : List LedgerOp → List QueueEntry
  | [] => db
  | op :: ops => applyOps (applyOp db op) ops

/-- The scope of claim C1 for one operation: an insert uses a fresh
row id (SQLite AUTOINCREMENT guarantees this); a move targets a
currently-waiting row and a position in `[1, N]`; a removal targets a
currently-waiting row with one of the three terminal outcomes. -/
def OpOK (db : List QueueEntry) : LedgerOp → Prop
  | .insert _ _ _ _ _ eid _ _ => ∀ x ∈ db, x.id ≠ eid
  | .move eid np =>
    (∃ x ∈ db, x.id = eid ∧ x.status = "waiting") ∧
      1 ≤ np ∧ np ≤ (numWaiting db : Int)
  | .remove eid outcome _ =>
    (∃ x ∈ db, x.id = eid ∧ x.status = "waiting") ∧
      (outcome = "completed" ∨ outcome = "no_show" ∨
        outcome = "cancelled")

/-- Every operation of the script is in scope at its turn. -/
def OpsOK (db : List QueueEntry) : List LedgerOp → Prop
  | [] => True
  | op :: ops => OpOK db op ∧ OpsOK (applyOp db op) ops

instance (db : List QueueEntry) (op : LedgerOp) : Decidable (OpOK db op) := by
  cases op with
  | insert pid ap q nts did eid tok now =>
    exact inferInstanceAs (Decidable (∀ x ∈ db, x.id ≠ eid))
  | move eid np =>
    exact inferInstanceAs (Decidable
      ((∃ x ∈ db, x.id = eid ∧ x.status = "waiting") ∧
        1 ≤ np ∧ np ≤ (numWaiting db : Int)))
  | remove eid outcome now =>
    exact inferInstanceAs (Decidable
      ((∃ x ∈ db, x.id = eid ∧ x.status = "waiting") ∧
        (outcome = "completed" ∨ outcome = "no_show" ∨
          outcome = "cancelled")))

instance instDecidableOpsOK : (db : List QueueEntry) →
    (ops : List LedgerOp) → Decidable (OpsOK db ops)
  | _, [] => Decidable.isTrue True.intro
  | db, op :: rest =>
    have : Decidable (OpsOK (applyOp db op) rest) :=
      instDecidableOpsOK (applyOp db op) rest
    inferInstanceAs (Decidable (_ ∧ _))

/-- A three-check-in, one-move, one-removal script replaying the
specification's scenarios. -/
def demoOps : List LedgerOp :=
  [LedgerOp.insert 10 none none none none 1 "tokA" 0,
   LedgerOp.insert 11 none none none none 2 "tokB" 1,
   LedgerOp.insert 12 none none none none 3 "tokC" 2,
   LedgerOp.move 3 1,
   LedgerOp.remove 2 "completed" 5]

/-- The identity-relevant view of a row: its primary key and its
token. -/
def idTok (x : QueueEntry) : Nat × String := (x.id, x.token)

/-- C7: `calculate_wait_time(position, None)` equals
`max 0 ((position - 1) * 15 + 5)` for every position, a present
non-zero quote is returned unchanged, and in particular the estimates
at positions 1 and 3 without a quote are 5 and 35 and a quote of 20
at position 5 is returned as 20. -/
theorem wait_time_formula :
    (∀ position : Int, calculate_wait_time position none =
        max 0 ((position - 1) * 15 + 5)) ∧
    (∀ position q : Int, q ≠ 0 → calculate_wait_time position (some q) = q) ∧
    calculate_wait_time 1 none = 5 ∧
    calculate_wait_time 3 none = 35 ∧
    calculate_wait_time 5 (some 20) = 20 := by
  refine ⟨fun position => by simp [calculate_wait_time, intTruthy],
    fun position q hq => ?_, by decide, by decide, by decide⟩
  simp [calculate_wait_time, intTruthy, hq]

/-- Witness for `wait_time_formula` at position 2 with quote 3. -/
theorem wait_time_formula_witness :
    (3 : Int) ≠ 0 ∧ calculate_wait_time 2 (some 3) = 3 :=
  ⟨by decide, wait_time_formula.2.1 2 3 (by decide)⟩

/-- C8 counterexample: an explicit zero quote is not returned
unchanged — at position 1 the function returns the positional
estimate 5, not 0. -/
theorem zero_quote_cex :
    calculate_wait_time 1 (some 0) = 5 ∧ (5 : Int) ≠ 0 := by decide

/-- C8 (amended): a zero quote is falsy in Python, so
`calculate_wait_time(position, 0)` falls through to the positional
formula `max 0 ((position - 1) * 15 + 5)`, exactly as with no quote
at all. -/
theorem zero_quote_positional_formula (position : Int) :
    calculate_wait_time position (some 0) = calculate_wait_time position none ∧
    calculate_wait_time position (some 0) = max 0 ((position - 1) * 15 + 5) := by
  constructor <;> simp [calculate_wait_time, intTruthy]

/-- C4 counterexample: `mark_called_in` at time 10 and then again at
time 20 on the same row leaves `called_in_at = 20`, not the value 10
established by the first call. -/
theorem mark_called_in_overwrites_cex :
    ((mark_called_in (mark_called_in [exWaiting] 1 10) 1 20).map
        (fun x => x.called_in_at)) = [some 20] ∧
    some (20 : Nat) ≠ some 10 := by decide

/-- C4 (amended): `mark_called_in` overwrites `called_in_at`
unconditionally with the current time, so of two successive calls the
second one wins — a repeat call is a no-op only when the clock
reading is unchanged. -/
theorem mark_called_in_last_write_wins (db : List QueueEntry)
    (entry_id t1 t2 : Nat) :
    mark_called_in (mark_called_in db entry_id t1) entry_id t2 =
      mark_called_in db entry_id t2 := by
  simp only [mark_called_in, List.map_map]
  apply List.map_congr_left
  intro x _
  by_cases h : x.id = entry_id <;> simp [h]

/-- C6: `get_patients_needing_notification` returns exactly the rows
that are waiting, flagged waiting outside, not yet notified and
within the threshold; in particular an already-notified row is never
returned. -/
theorem notification_eligibility (db : List QueueEntry) (threshold : Int) :
    (∀ x : QueueEntry, x ∈ get_patients_needing_notification db threshold ↔
      (x ∈ db ∧ x.status = "waiting" ∧ x.waiting_outside = true ∧
        x.outside_notified = false ∧ x.position ≤ threshold)) ∧
    (∀ x : QueueEntry, x.outside_notified = true →
      x ∉ get_patients_needing_notification db threshold) := by
  have hmem : ∀ x : QueueEntry,
      x ∈ get_patients_needing_notification db threshold ↔
      (x ∈ db ∧ x.status = "waiting" ∧ x.waiting_outside = true ∧
        x.outside_notified = false ∧ x.position ≤ threshold) := by
    intro x
    simp [get_patients_needing_notification, List.mem_filter, and_assoc]
  refine ⟨hmem, fun x hx hmemx => ?_⟩
  have := (hmem x).mp hmemx
  simp [hx] at this

/-- Witness for `notification_eligibility`: an eligible row is
returned, an already-notified row is not. -/
theorem notification_eligibility_witness :
    exOutside ∈ get_patients_needing_notification [exOutside] 2 ∧
    exNotified ∉ get_patients_needing_notification [exNotified] 2 :=
  ⟨((notification_eligibility [exOutside] 2).1 exOutside).mpr
      ⟨by decide, by decide, by decide, by decide, by decide⟩,
    (notification_eligibility [exNotified] 2).2 exNotified (by decide)⟩

/-- C3 counterexample: moving the id of a row whose status is the
terminal `completed` does not fail — the call returns success and
even rewrites the stored position. -/
theorem move_terminal_entry_succeeds_cex :
    exCompleted.status = "completed" ∧
    (update_queue_position [exCompleted] 2 2).2 = true ∧
    (update_queue_position [exCompleted] 2 2).1 =
      [{ exCompleted with position := 2 }] := by decide

/-- C3 (amended): `update_queue_position` fails exactly when the id
matches no row at all (the lookup has no status filter, so a terminal
row's id is accepted and moved like any other); on failure the table
is returned unchanged. -/
theorem move_failure_iff_unknown_id (db : List QueueEntry) (entry_id : Nat)
    (new_position : Int) :
    (update_queue_position db entry_id new_position).2 =
      (findById db entry_id).isSome ∧
    ((findById db entry_id).isNone →
      update_queue_position db entry_id new_position = (db, false)) := by
  constructor
  · unfold update_queue_position
    cases h : findById db entry_id
    · simp
    · simp only [Option.isSome_some]
      split
      · rfl
      · rfl
  · intro hnone
    rw [Option.isNone_iff_eq_none] at hnone
    unfold update_queue_position
    rw [hnone]

/-- Witness for `move_failure_iff_unknown_id` on an unknown id. -/
theorem move_failure_iff_unknown_id_witness :
    (findById [exWaiting] 7).isNone ∧
    update_queue_position [exWaiting] 7 3 = ([exWaiting], false) :=
  ⟨by decide, (move_failure_iff_unknown_id [exWaiting] 7 3).2 (by decide)⟩

theorem cnt_append (P : QueueEntry → Prop) [DecidablePred P]
    (l1 l2 : List QueueEntry) : cnt P (l1 ++ l2) = cnt P l1 + cnt P l2 := by
  induction l1 with
  | nil => simp [cnt]
  | cons a l ih =>
    show (if P a then 1 else 0) + cnt P (l ++ l2) = _
    rw [ih]
    show _ = (if P a then 1 else 0) + cnt P l + cnt P l2
    omega

theorem cnt_congr {P Q : QueueEntry → Prop} [DecidablePred P] [DecidablePred Q]
    {l : List QueueEntry} (h : ∀ x ∈ l, P x ↔ Q x) : cnt P l = cnt Q l := by
  induction l with
  | nil => rfl
  | cons a l ih =>
    have ha := h a (List.mem_cons_self a l)
    have hl : ∀ x ∈ l, P x ↔ Q x := fun x hx => h x (List.mem_cons_of_mem a hx)
    show (if P a then 1 else 0) + cnt P l = (if Q a then 1 else 0) + cnt Q l
    rw [ih hl]
    by_cases hp : P a
    · rw [if_pos hp, if_pos (ha.mp hp)]
    · rw [if_neg hp, if_neg (fun hq => hp (ha.mpr hq))]

theorem cnt_or_disjoint {P Q : QueueEntry → Prop} [DecidablePred P]
    [DecidablePred Q] {l : List QueueEntry}
    (h : ∀ x ∈ l, ¬(P x ∧ Q x)) :
    cnt (fun x => P x ∨ Q x) l = cnt P l + cnt Q l := by
  induction l with
  | nil => rfl
  | cons a l ih =>
    have ha := h a (List.mem_cons_self a l)
    have hl : ∀ x ∈ l, ¬(P x ∧ Q x) := fun x hx => h x (List.mem_cons_of_mem a hx)
    show (if P a ∨ Q a then 1 else 0) + _ = (if P a then 1 else 0) + cnt P l +
      ((if Q a then 1 else 0) + cnt Q l)
    rw [ih hl]
    by_cases hp : P a
    · have hq : ¬ Q a := fun hq => ha ⟨hp, hq⟩
      rw [if_pos (Or.inl hp), if_pos hp, if_neg hq]; omega
    · by_cases hq : Q a
      · rw [if_pos (Or.inr hq), if_neg hp, if_pos hq]; omega
      · rw [if_neg (fun hc => hc.elim hp hq), if_neg hp, if_neg hq]; omega

theorem cnt_map {P : QueueEntry → Prop} [DecidablePred P]
    (f : QueueEntry → QueueEntry) (l : List QueueEntry) :
    cnt P (l.map f) = cnt (fun x => P (f x)) l := by
  induction l with
  | nil => rfl
  | cons a l ih =>
    show (if P (f a) then 1 else 0) + cnt P (l.map f) = _
    rw [ih]; rfl

theorem cnt_pos_of_mem {P : QueueEntry → Prop} [DecidablePred P]
    {l : List QueueEntry} {e : QueueEntry} (he : e ∈ l) (hp : P e) :
    0 < cnt P l := by
  induction l with
  | nil => cases he
  | cons a l ih =>
    show 0 < (if P a then 1 else 0) + cnt P l
    rcases List.mem_cons.mp he with h | h
    · subst h; rw [if_pos hp]; omega
    · have := ih h; omega

theorem exists_of_cnt_pos {P : QueueEntry → Prop} [DecidablePred P]
    {l : List QueueEntry} (h : 0 < cnt P l) : ∃ e ∈ l, P e := by
  induction l with
  | nil => exact absurd h (by simp [cnt])
  | cons a l ih =>
    by_cases hp : P a
    · exact ⟨a, List.mem_cons_self a l, hp⟩
    · have h2 : 0 < cnt P l := by
        have : cnt P (a :: l) = (if P a then 1 else 0) + cnt P l := rfl
        rw [this, if_neg hp] at h; omega
      obtain ⟨e, he, hpe⟩ := ih h2
      exact ⟨e, List.mem_cons_of_mem a he, hpe⟩

theorem cnt_eq_zero {P : QueueEntry → Prop} [DecidablePred P]
    {l : List QueueEntry} (h : ∀ x ∈ l, ¬ P x) : cnt P l = 0 := by
  induction l with
  | nil => rfl
  | cons a l ih =>
    show (if P a then 1 else 0) + cnt P l = 0
    rw [if_neg (h a (List.mem_cons_self a l)),
      ih (fun x hx => h x (List.mem_cons_of_mem a hx))]

theorem nodupIds_cons {a : QueueEntry} {l : List QueueEntry} :
    NodupIds (a :: l) ↔ (∀ x ∈ l, x.id ≠ a.id) ∧ NodupIds l := by
  simp only [NodupIds, List.map_cons, List.nodup_cons, List.mem_map]
  constructor
  · rintro ⟨h1, h2⟩
    exact ⟨fun x hx heq => h1 ⟨x, hx, heq⟩, h2⟩
  · rintro ⟨h1, h2⟩
    refine ⟨fun hex => ?_, h2⟩
    obtain ⟨x, hx, heq⟩ := hex
    exact h1 x hx heq

theorem id_eq_of_nodupIds {l : List QueueEntry} (hnd : NodupIds l)
    {x e : QueueEntry} (hx : x ∈ l) (he : e ∈ l) (h : x.id = e.id) :
    x = e := by
  induction l with
  | nil => cases hx
  | cons a l ih =>
    obtain ⟨hnotin, hnd2⟩ := nodupIds_cons.mp hnd
    rcases List.mem_cons.mp hx with h1 | h1 <;>
      rcases List.mem_cons.mp he with h2 | h2
    · rw [h1, h2]
    · subst h1
      exact absurd h.symm (hnotin e h2)
    · subst h2
      exact absurd h (hnotin x h1)
    · exact ih hnd2 h1 h2

theorem cnt_id_unique {l : List QueueEntry} {e : QueueEntry} {eid : Nat}
    (hnd : NodupIds l) (he : e ∈ l) (hid : e.id = eid)
    (R : QueueEntry → Prop) [DecidablePred R] :
    cnt (fun x => x.id = eid ∧ R x) l = if R e then 1 else 0 := by
  induction l with
  | nil => cases he
  | cons a l ih =>
    obtain ⟨hnotin, hnd2⟩ := nodupIds_cons.mp hnd
    by_cases hae : a = e
    · have hz : cnt (fun x => x.id = eid ∧ R x) l = 0 := by
        refine cnt_eq_zero (fun x hx hpx => ?_)
        refine hnotin x hx ?_
        rw [hae, hid]
        exact hpx.1
      show (if a.id = eid ∧ R a then 1 else 0) + _ = _
      rw [hz, hae]
      by_cases hr : R e
      · rw [if_pos ⟨hid, hr⟩, if_pos hr]
      · rw [if_neg (fun hc => hr hc.2), if_neg hr]
    · have hel : e ∈ l := by
        rcases List.mem_cons.mp he with h | h
        · exact absurd h.symm hae
        · exact h
      have haid : ¬ (a.id = eid) := by
        intro hc
        exact hnotin e hel (hid.trans hc.symm)
      show (if a.id = eid ∧ R a then 1 else 0) + _ = _
      rw [if_neg (fun hc => haid hc.1), ih hnd2 hel]
      omega

theorem findById_eq_some {l : List QueueEntry} {e : QueueEntry}
    (hnd : NodupIds l) (he : e ∈ l) : findById l e.id = some e := by
  induction l with
  | nil => cases he
  | cons a l ih =>
    obtain ⟨hnotin, hnd2⟩ := nodupIds_cons.mp hnd
    rcases List.mem_cons.mp he with h | h
    · subst h
      simp [findById, List.find?]
    · have hfalse : (a.id == e.id) = false := by
        simp only [beq_eq_false_iff_ne, ne_eq]
        exact fun hc => hnotin e h hc.symm
      have hstep : findById (a :: l) e.id = findById l e.id := by
        simp [findById, List.find?, hfalse]
      rw [hstep]
      exact ih hnd2 h

theorem nodupIds_map {l : List QueueEntry} {f : QueueEntry → QueueEntry}
    (hf : ∀ x, (f x).id = x.id) (hnd : NodupIds l) : NodupIds (l.map f) := by
  unfold NodupIds at hnd ⊢
  rw [List.map_map]
  have h2 : l.map ((fun x : QueueEntry => x.id) ∘ f) = l.map (fun x => x.id) :=
    List.map_congr_left (fun x _ => hf x)
  rw [h2]
  exact hnd

theorem nodupIds_append_fresh {l : List QueueEntry} {e : QueueEntry}
    (hnd : NodupIds l) (hfresh : ∀ x ∈ l, x.id ≠ e.id) :
    NodupIds (l ++ [e]) := by
  unfold NodupIds at hnd ⊢
  rw [List.map_append]
  rw [List.nodup_append]
  refine ⟨hnd, List.nodup_singleton _, ?_⟩
  intro a ha hb
  simp only [List.map_cons, List.map_nil, List.mem_singleton] at hb
  obtain ⟨x, hx, hxa⟩ := List.mem_map.mp ha
  exact hfresh x hx (hxa.symm ▸ hb : x.id = e.id)

theorem cnt_le_cnt {P Q : QueueEntry → Prop} [DecidablePred P]
    [DecidablePred Q] (h : ∀ x, P x → Q x) :
    ∀ l : List QueueEntry, cnt P l ≤ cnt Q l := by
  intro l
  induction l with
  | nil => exact Nat.le_refl 0
  | cons a l ih =>
    show (if P a then 1 else 0) + cnt P l ≤ (if Q a then 1 else 0) + cnt Q l
    have : (if P a then 1 else 0) ≤ (if Q a then 1 else 0) := by
      by_cases hp : P a
      · rw [if_pos hp, if_pos (h a hp)]
      · rw [if_neg hp]; omega
    omega

theorem dense_nil : DensePositions [] := by
  intro p
  show (0 : Nat) = if 1 ≤ p ∧ p ≤ ((numWaiting [] : Nat) : Int) then 1 else 0
  have : numWaiting ([] : List QueueEntry) = 0 := rfl
  rw [this]
  split
  · omega
  · rfl

theorem nodupIds_nil : NodupIds [] := List.nodup_nil

/-- A waiting row's position lies in `1..numWaiting` when the table
is dense. -/
theorem pos_bounds_of_dense {db : List QueueEntry} (hd : DensePositions db)
    {e : QueueEntry} (he : e ∈ db) (hw : e.status = "waiting") :
    1 ≤ e.position ∧ e.position ≤ (numWaiting db : Int) := by
  have hpos : 0 < posCount db e.position :=
    cnt_pos_of_mem he ⟨hw, rfl⟩
  have := hd e.position
  by_cases hc : 1 ≤ e.position ∧ e.position ≤ (numWaiting db : Int)
  · exact hc
  · rw [this, if_neg hc] at hpos
    omega

theorem mem_waitingPositions {db : List QueueEntry} {p : Int} :
    p ∈ waitingPositions db ↔ 0 < posCount db p := by
  constructor
  · intro hp
    obtain ⟨x, hxf, hxp⟩ := List.mem_map.mp hp
    obtain ⟨hxdb, hxw⟩ := List.mem_filter.mp hxf
    refine cnt_pos_of_mem hxdb ⟨?_, hxp⟩
    exact beq_iff_eq.mp hxw
  · intro hp
    obtain ⟨x, hxdb, hxw, hxp⟩ := exists_of_cnt_pos hp
    refine List.mem_map.mpr ⟨x, List.mem_filter.mpr ⟨hxdb, ?_⟩, hxp⟩
    exact beq_iff_eq.mpr hxw

theorem waitingPositions_nil_iff {db : List QueueEntry} :
    waitingPositions db = [] ↔ numWaiting db = 0 := by
  constructor
  · intro h
    by_contra hne
    have hpos : 0 < numWaiting db := Nat.pos_of_ne_zero hne
    obtain ⟨x, hxdb, hxw⟩ := exists_of_cnt_pos hpos
    have : x.position ∈ waitingPositions db :=
      mem_waitingPositions.mpr (cnt_pos_of_mem hxdb ⟨hxw, rfl⟩)
    rw [h] at this
    cases this
  · intro h
    by_contra hne
    obtain ⟨p, hp⟩ := List.exists_mem_of_ne_nil _ hne
    have := mem_waitingPositions.mp hp
    have hzero : posCount db p ≤ numWaiting db :=
      cnt_le_cnt (fun x hx => hx.1) db
    omega

theorem maxPos?_mem : ∀ {l : List Int} {m : Int}, maxPos? l = some m → m ∈ l := by
  intro l
  induction l with
  | nil => intro m h; cases h
  | cons p ps ih =>
    intro m h
    unfold maxPos? at h
    cases h2 : maxPos? ps with
    | none =>
      rw [h2] at h
      injection h with h
      exact h ▸ List.mem_cons_self p ps
    | some m2 =>
      rw [h2] at h
      injection h with h
      rcases max_choice p m2 with hc | hc
    


      · rw [← h, hc]
        exact List.mem_cons_self p ps
      · rw [← h, hc]
        exact List.mem_cons_of_mem p (ih h2)

theorem maxPos?_ge : ∀ {l : List Int} {q m : Int},
    maxPos? l = some m → q ∈ l → q ≤ m := by
  intro l
  induction l with
  | nil => intro q m _ hq; cases hq
  | cons p ps ih =>
    intro q m h hq
    unfold maxPos? at h
    cases h2 : maxPos? ps with
    | none =>
      rw [h2] at h
      injection h with h
      rcases List.mem_cons.mp hq with hc | hc
      · omega
      · exfalso
        have : ps = [] := by
          cases ps with
          | nil => rfl
          | cons b bs =>
            exfalso
            unfold maxPos? at h2
            cases h3 : maxPos? bs <;> rw [h3] at h2 <;> cases h2
        rw [this] at hc
        cases hc
    | some m2 =>
      rw [h2] at h
      injection h with h
      rcases List.mem_cons.mp hq with hc | hc
      · rw [hc, ← h]
        exact le_max_left p m2
      · have := ih h2 hc
        rw [← h]
        exact le_trans this (le_max_right p m2)

/-- In a dense table the maximal waiting position is exactly the
number of waiting rows (SQL NULL on an empty waiting set). -/
theorem maxPos?_of_dense {db : List QueueEntry} (hd : DensePositions db) :
    (maxPos? (waitingPositions db)).getD 0 = (numWaiting db : Int) := by
  by_cases hN : numWaiting db = 0
  · have hnil : waitingPositions db = [] := waitingPositions_nil_iff.mpr hN
    rw [hnil, hN]
    rfl
  · have hN1 : 1 ≤ (numWaiting db : Int) := by
      have := Nat.pos_of_ne_zero hN
      omega
    have hmemN : (numWaiting db : Int) ∈ waitingPositions db := by
      refine mem_waitingPositions.mpr ?_
      have := hd (numWaiting db : Int)
      rw [this, if_pos ⟨hN1, le_refl _⟩]
      omega
    cases hmax : maxPos? (waitingPositions db) with
    | none =>
      exfalso
      cases hwp : waitingPositions db with
      | nil => exact hN (waitingPositions_nil_iff.mp hwp)
      | cons b bs =>
        rw [hwp] at hmax
        unfold maxPos? at hmax
        cases h3 : maxPos? bs <;> rw [h3] at hmax <;> cases hmax
    | some m =>
      have hmmem : m ∈ waitingPositions db := maxPos?_mem hmax
      have hmcount := mem_waitingPositions.mp hmmem
      have hmle : m ≤ (numWaiting db : Int) := by
        have := hd m
        by_cases hc : 1 ≤ m ∧ m ≤ (numWaiting db : Int)
        · exact hc.2
        · rw [this, if_neg hc] at hmcount
          omega
      have hNle : (numWaiting db : Int) ≤ m := maxPos?_ge hmax hmemN
      have : m = (numWaiting db : Int) := le_antisymm hmle hNle
      rw [this]
      rfl

theorem add_to_queue_eq (db : List QueueEntry) (pid : Nat)
    (ap : Option Nat) (q : Option Int) (nts : Option String)
    (did : Option Nat) (eid : Nat) (tok : String) (now : Nat) :
    add_to_queue db pid ap q nts did eid tok now =
      (db ++ [newRow db pid ap q nts did eid tok now], nextPos db,
        calculate_wait_time (nextPos db) q) := rfl

theorem cnt_singleton (P : QueueEntry → Prop) [DecidablePred P]
    (r : QueueEntry) : cnt P [r] = if P r then 1 else 0 := by
  show (if P r then 1 else 0) + 0 = _
  omega

/-- Inserting via `add_to_queue` preserves density, preserves id
uniqueness when the fresh id is really fresh, grows the waiting count
by one and assigns position `numWaiting + 1`. -/
theorem dense_add_to_queue {db : List QueueEntry} (hd : DensePositions db)
    (hnd : NodupIds db) (pid : Nat) (ap : Option Nat) (q : Option Int)
    (nts : Option String) (did : Option Nat) (eid : Nat) (tok : String)
    (now : Nat) (hfresh : ∀ x ∈ db, x.id ≠ eid) :
    DensePositions (add_to_queue db pid ap q nts did eid tok now).1 ∧
    NodupIds (add_to_queue db pid ap q nts did eid tok now).1 ∧
    numWaiting (add_to_queue db pid ap q nts did eid tok now).1 =
      numWaiting db + 1 ∧
    (add_to_queue db pid ap q nts did eid tok now).2.1 =
      (numWaiting db : Int) + 1 := by
  have hnext : nextPos db = (numWaiting db : Int) + 1 := by
    unfold nextPos
    rw [maxPos?_of_dense hd]
  rw [add_to_queue_eq]
  set r := newRow db pid ap q nts did eid tok now with hr
  have hrw : r.status = "waiting" := rfl
  have hrpos : r.position = nextPos db := rfl
  have hNW : numWaiting (db ++ [r]) = numWaiting db + 1 := by
    unfold numWaiting
    rw [cnt_append, cnt_singleton, if_pos hrw]
  refine ⟨?_, ?_, hNW, hnext⟩
  · intro p
    unfold posCount
    rw [cnt_append, cnt_singleton]
    have hdp := hd p
    unfold posCount at hdp
    have hrp : (r.status = "waiting" ∧ r.position = p) ↔
        p = (numWaiting db : Int) + 1 := by
      constructor
      · intro hc
        rw [← hc.2, hrpos, hnext]
      · intro hc
        exact ⟨hrw, by rw [hrpos, hnext, hc]⟩
    have hcast : ((numWaiting db + 1 : Nat) : Int) =
        (numWaiting db : Int) + 1 := by push_cast; ring
    rw [hNW]
    by_cases hp : p = (numWaiting db : Int) + 1
    · rw [if_pos (hrp.mpr hp), hdp, hcast, if_neg (by omega),
        if_pos (by omega)]
    · rw [if_neg (fun hc => hp (hrp.mp hc)), hdp, hcast]
      by_cases hq : 1 ≤ p ∧ p ≤ (numWaiting db : Int)
      · rw [if_pos hq, if_pos (by omega)]
      · rw [if_neg hq, if_neg (by omega)]
  · exact nodupIds_append_fresh hnd (by
      intro x hx
      show x.id ≠ r.id
      exact hfresh x hx)

theorem withPos_id (x : QueueEntry) (v : Int) :
    ({ x with position := v } : QueueEntry).id = x.id := rfl

theorem withPos_status (x : QueueEntry) (v : Int) :
    ({ x with position := v } : QueueEntry).status = x.status := rfl

theorem withPos_position (x : QueueEntry) (v : Int) :
    ({ x with position := v } : QueueEntry).position = v := rfl

theorem withPos_token (x : QueueEntry) (v : Int) :
    ({ x with position := v } : QueueEntry).token = x.token := rfl

theorem moveRowSpec_id (eid : Nat) (o n : Int) (x : QueueEntry) :
    (moveRowSpec eid o n x).id = x.id := by
  unfold moveRowSpec
  split_ifs <;> rfl

theorem moveRowSpec_status (eid : Nat) (o n : Int) (x : QueueEntry) :
    (moveRowSpec eid o n x).status = x.status := by
  unfold moveRowSpec
  split_ifs <;> rfl

theorem moveRowSpec_position (eid : Nat) (o n : Int) (x : QueueEntry) :
    (moveRowSpec eid o n x).position =
      if x.id = eid then n
      else if x.status = "waiting" ∧ n < o ∧ n ≤ x.position ∧
          x.position < o then x.position + 1
      else if x.status = "waiting" ∧ o < n ∧ o < x.position ∧
          x.position ≤ n then x.position - 1
      else x.position := by
  unfold moveRowSpec
  split_ifs <;> rfl

theorem map_eq_self_of_eq {l : List QueueEntry}
    {f : QueueEntry → QueueEntry} (h : ∀ x ∈ l, f x = x) : l.map f = l := by
  induction l with
  | nil => rfl
  | cons a t ih =>
    simp only [List.map_cons]
    rw [h a (List.mem_cons_self a t),
      ih (fun x hx => h x (List.mem_cons_of_mem a hx))]

/-- A move to the row's own position rewrites nothing. -/
theorem moveRowSpec_self {db : List QueueEntry} (hnd : NodupIds db)
    {e : QueueEntry} (he : e ∈ db) :
    db.map (moveRowSpec e.id e.position e.position) = db := by
  refine map_eq_self_of_eq (fun x hx => ?_)
  unfold moveRowSpec
  split_ifs with h1 h2 h3
  · have hxe : x = e := id_eq_of_nodupIds hnd hx he h1
    rw [hxe]
  · exact absurd h2.2.1 (lt_irrefl _)
  · exact absurd h3.2.1 (lt_irrefl _)
  · rfl

theorem setPos_shiftUp (eid : Nat) (o n : Int) (hlt : n < o)
    (x : QueueEntry) :
    setPosRow eid n (shiftUpRow eid o n x) = moveRowSpec eid o n x := by
  unfold shiftUpRow setPosRow moveRowSpec
  by_cases hid : x.id = eid
  · simp [hid]
  · by_cases h1 : x.status = "waiting" <;>
      by_cases h2 : n ≤ x.position <;>
        by_cases h3 : x.position < o <;>
          simp [hid, h1, h2, h3, hlt, lt_asymm hlt, withPos_id]

theorem setPos_shiftDown (eid : Nat) (o n : Int) (hgt : o < n)
    (x : QueueEntry) :
    setPosRow eid n (shiftDownRow eid o n x) = moveRowSpec eid o n x := by
  unfold shiftDownRow setPosRow moveRowSpec
  by_cases hid : x.id = eid
  · simp [hid]
  · by_cases h1 : x.status = "waiting" <;>
      by_cases h2 : o < x.position <;>
        by_cases h3 : x.position ≤ n <;>
          simp [hid, h1, h2, h3, hgt, lt_asymm hgt, withPos_id]

/-- A successful `update_queue_position` call on an existing row is
exactly the row-wise `moveRowSpec` rewrite of the table. -/
theorem update_queue_position_eq_map {db : List QueueEntry}
    {e : QueueEntry} (hnd : NodupIds db) (he : e ∈ db) (np : Int) :
    update_queue_position db e.id np =
      (db.map (moveRowSpec e.id e.position np), true) := by
  simp only [update_queue_position, findById_eq_some hnd he]
  by_cases heq : e.position = np
  · rw [if_pos heq, ← heq, moveRowSpec_self hnd he]
  · rw [if_neg heq]
    by_cases hlt : np < e.position
    · rw [if_pos hlt, List.map_map]
      exact congrArg (fun l => (l, true))
        (List.map_congr_left
          (fun x _ => setPos_shiftUp e.id e.position np hlt x))
    · have hgt : e.position < np := lt_of_le_of_ne (not_lt.mp hlt) heq
      rw [if_neg hlt, List.map_map]
      exact congrArg (fun l => (l, true))
        (List.map_congr_left
          (fun x _ => setPos_shiftDown e.id e.position np hgt x))

/-- C2: moving a waiting row at `old_position` to `new_position` in
`[1, N]` succeeds and rewrites the table row-wise exactly as the
specification describes (`moveRowSpec`): the moved row ends at
`new_position`; when moving up every other waiting row with
`new_position <= position < old_position` increments by 1; when
moving down every other waiting row with
`old_position < position <= new_position` decrements by 1; every
other row is unchanged; and a move to the row's own position changes
nothing. -/
theorem move_shift_semantics {db : List QueueEntry} {e : QueueEntry}
    (hnd : NodupIds db) (he : e ∈ db) (hw : e.status = "waiting")
    {np : Int} (hlo : 1 ≤ np) (hhi : np ≤ (numWaiting db : Int)) :
    (update_queue_position db e.id np).2 = true ∧
    (update_queue_position db e.id np).1 =
      db.map (moveRowSpec e.id e.position np) ∧
    (np = e.position → (update_queue_position db e.id np).1 = db) := by
  have h := update_queue_position_eq_map hnd he np
  refine ⟨by rw [h], by rw [h], fun hnp => ?_⟩
  rw [h]
  show db.map (moveRowSpec e.id e.position np) = db
  rw [hnp, moveRowSpec_self hnd he]

/-- Witness for `move_shift_semantics`: moving row 1 from position 1
to position 2 in a two-row queue. -/
theorem move_shift_semantics_witness :
    NodupIds [exWaiting, exWaiting2] ∧
    exWaiting.status = "waiting" ∧
    (1 : Int) ≤ 2 ∧ (2 : Int) ≤ (numWaiting [exWaiting, exWaiting2] : Int) ∧
    (update_queue_position [exWaiting, exWaiting2] exWaiting.id 2).1 =
      [exWaiting, exWaiting2].map (moveRowSpec exWaiting.id
        exWaiting.position 2) :=
  ⟨by decide, by decide, by decide, by decide,
    (@move_shift_semantics [exWaiting, exWaiting2] exWaiting
      (by decide) (by decide) (by decide) 2 (by decide) (by decide)).2.1⟩

theorem closeGap_stamp {db : List QueueEntry} {e : QueueEntry}
    (hnd : NodupIds db) (he : e ∈ db) (outcome : String) (now : Nat) :
    ∀ x ∈ db, closeGapRow e.position (stampRow e.id outcome now x) =
      removeRowSpec e.id e.position outcome now x := by
  intro x hx
  by_cases hid : x.id = e.id
  · have hxe : x = e := id_eq_of_nodupIds hnd hx he hid
    subst hxe
    simp [stampRow, closeGapRow, removeRowSpec]
  · by_cases h1 : x.status = "waiting" <;>
      by_cases h2 : e.position < x.position <;>
        simp [stampRow, closeGapRow, removeRowSpec, hid, h1, h2]

/-- A `remove_from_queue` call on an existing row is exactly the
row-wise `removeRowSpec` rewrite of the table, whatever the row's
current status. -/
theorem remove_from_queue_eq_map {db : List QueueEntry} {e : QueueEntry}
    (hnd : NodupIds db) (he : e ∈ db) (outcome : String) (now : Nat) :
    remove_from_queue db e.id outcome now =
      (db.map (removeRowSpec e.id e.position outcome now), true) := by
  simp only [remove_from_queue, findById_eq_some hnd he]
  rw [List.map_map]
  exact congrArg (fun l => (l, true))
    (List.map_congr_left (closeGap_stamp hnd he outcome now))

/-- C5: removing a waiting row with a terminal outcome succeeds, sets
the row's status to the outcome, stamps `completed_at` with now, sets
`called_in_at` to now exactly when it was unset, and decrements by 1
the position of every waiting row strictly beyond the removed row's
former position, leaving all other rows unchanged (row-wise
`removeRowSpec`). -/
theorem remove_waiting_postcondition {db : List QueueEntry}
    {e : QueueEntry} (hnd : NodupIds db) (he : e ∈ db)
    (hw : e.status = "waiting") {outcome : String}
    (hout : outcome = "completed" ∨ outcome = "no_show" ∨
      outcome = "cancelled") (now : Nat) :
    (remove_from_queue db e.id outcome now).2 = true ∧
    (remove_from_queue db e.id outcome now).1 =
      db.map (removeRowSpec e.id e.position outcome now) := by
  have h := remove_from_queue_eq_map hnd he outcome now
  exact ⟨by rw [h], by rw [h]⟩

/-- Witness for `remove_waiting_postcondition`: completing the row at
position 1 of a two-row queue. -/
theorem remove_waiting_postcondition_witness :
    NodupIds [exWaiting, exWaiting2] ∧ exWaiting.status = "waiting" ∧
    (remove_from_queue [exWaiting, exWaiting2] exWaiting.id
        "completed" 9).1 =
      [exWaiting, exWaiting2].map
        (removeRowSpec exWaiting.id exWaiting.position "completed" 9) :=
  ⟨by decide, by decide,
    (@remove_waiting_postcondition [exWaiting, exWaiting2] exWaiting
      (by decide) (by decide) (by decide) "completed" (Or.inl rfl) 9).2⟩

/-- C10: `remove_from_queue` on a row whose status is already
terminal is not a no-op: it returns success, overwrites the row's
status and `completed_at` again, and decrements by 1 the position of
every waiting row strictly beyond the terminal row's stored position
(row-wise `removeRowSpec`). -/
theorem remove_terminal_not_noop {db : List QueueEntry}
    {e : QueueEntry} (hnd : NodupIds db) (he : e ∈ db)
    (hterm : e.status ≠ "waiting") (outcome : String) (now : Nat) :
    (remove_from_queue db e.id outcome now).2 = true ∧
    (remove_from_queue db e.id outcome now).1 =
      db.map (removeRowSpec e.id e.position outcome now) := by
  have h := remove_from_queue_eq_map hnd he outcome now
  exact ⟨by rw [h], by rw [h]⟩

/-- Witness for `remove_terminal_not_noop`: removing an
already-completed row at stored position 1 shifts the waiting row at
position 2 down to 1. -/
theorem remove_terminal_not_noop_witness :
    exCompleted.status ≠ "waiting" ∧
    (remove_from_queue [exCompleted, exWaiting2] exCompleted.id
        "no_show" 7).1 =
      [exCompleted, exWaiting2].map
        (removeRowSpec exCompleted.id exCompleted.position "no_show" 7) :=
  ⟨by decide,
    (@remove_terminal_not_noop [exCompleted, exWaiting2] exCompleted
      (by decide) (by decide) (by decide) "no_show" 7).2⟩

/-- In a dense table with a designated waiting row `e`, every
in-range position other than `e.position` is held by exactly one
waiting row other than `e`, and `e.position` by none. -/
theorem cntOther_eq {db : List QueueEntry} {e : QueueEntry}
    (hd : DensePositions db) (hnd : NodupIds db) (he : e ∈ db)
    (hw : e.status = "waiting") (q : Int) :
    cnt (fun x => (¬(x.id = e.id)) ∧ x.status = "waiting" ∧
      x.position = q) db =
      if 1 ≤ q ∧ q ≤ (numWaiting db : Int) ∧ q ≠ e.position then 1
      else 0 := by
  have hco : ∀ x ∈ db, (x.status = "waiting" ∧ x.position = q) ↔
      ((x.id = e.id ∧ (x.status = "waiting" ∧ x.position = q)) ∨
       ((¬(x.id = e.id)) ∧ x.status = "waiting" ∧ x.position = q)) := by
    intro x _
    by_cases hid : x.id = e.id
    · constructor
      · intro h
        exact Or.inl ⟨hid, h⟩
      · rintro (h | h)
        · exact h.2
        · exact h.2
    · constructor
      · intro h
        exact Or.inr ⟨hid, h.1, h.2⟩
      · rintro (h | h)
        · exact absurd h.1 hid
        · exact ⟨h.2.1, h.2.2⟩
  have hq := hd q
  unfold posCount at hq
  rw [cnt_congr hco,
    cnt_or_disjoint (fun x _ hc => hc.2.1 hc.1.1),
    cnt_id_unique hnd he rfl] at hq
  have hb := pos_bounds_of_dense hd he hw
  by_cases hqe : q = e.position
  · rw [if_pos ⟨hw, hqe.symm⟩] at hq
    rw [if_neg (fun hc => hc.2.2 hqe)]
    rw [if_pos ⟨by omega, by omega⟩] at hq
    omega
  · rw [if_neg (fun hc => hqe (hc.2.symm))] at hq
    by_cases hr : 1 ≤ q ∧ q ≤ (numWaiting db : Int)
    · rw [if_pos hr] at hq
      rw [if_pos ⟨hr.1, hr.2, hqe⟩]
      omega
    · rw [if_neg hr] at hq
      rw [if_neg (fun hc => hr ⟨hc.1, hc.2.1⟩)]
      omega

theorem posCount_move_up {db : List QueueEntry} {e : QueueEntry}
    (hd : DensePositions db) (hnd : NodupIds db) (he : e ∈ db)
    (hw : e.status = "waiting") {np : Int} (hlo : 1 ≤ np)
    (hlt : np < e.position) (p : Int) :
    posCount (db.map (moveRowSpec e.id e.position np)) p =
      if 1 ≤ p ∧ p ≤ (numWaiting db : Int) then 1 else 0 := by
  have hb := pos_bounds_of_dense hd he hw
  unfold posCount
  simp only [cnt_map]
  have hpt : ∀ x ∈ db,
      ((moveRowSpec e.id e.position np x).status = "waiting" ∧
        (moveRowSpec e.id e.position np x).position = p) ↔
      ((x.id = e.id ∧ (x.status = "waiting" ∧ np = p)) ∨
       ((((¬(x.id = e.id)) ∧ x.status = "waiting" ∧ x.position = p - 1) ∧
         (np ≤ p - 1 ∧ p - 1 < e.position)) ∨
        (((¬(x.id = e.id)) ∧ x.status = "waiting" ∧ x.position = p) ∧
         ¬(np ≤ p ∧ p < e.position)))) := by
    intro x hx
    rw [moveRowSpec_status, moveRowSpec_position]
    by_cases hid : x.id = e.id <;> by_cases h1 : x.status = "waiting" <;>
      simp [hid, h1, hlt, lt_asymm hlt] <;>
        first
          | omega
          | (split_ifs <;> omega)
  rw [cnt_congr hpt]
  have hdisj1 : ∀ x ∈ db,
      ¬((x.id = e.id ∧ (x.status = "waiting" ∧ np = p)) ∧
        ((((¬(x.id = e.id)) ∧ x.status = "waiting" ∧ x.position = p - 1) ∧
          (np ≤ p - 1 ∧ p - 1 < e.position)) ∨
         (((¬(x.id = e.id)) ∧ x.status = "waiting" ∧ x.position = p) ∧
          ¬(np ≤ p ∧ p < e.position)))) := by
    intro x _ hc
    rcases hc.2 with h | h
    · exact h.1.1 hc.1.1
    · exact h.1.1 hc.1.1
  have hdisj2 : ∀ x ∈ db,
      ¬((((¬(x.id = e.id)) ∧ x.status = "waiting" ∧ x.position = p - 1) ∧
          (np ≤ p - 1 ∧ p - 1 < e.position)) ∧
        (((¬(x.id = e.id)) ∧ x.status = "waiting" ∧ x.position = p) ∧
          ¬(np ≤ p ∧ p < e.position))) := by
    intro x _ hc
    have h1 := hc.1.1.2.2
    have h2 := hc.2.1.2.2
    omega
  rw [cnt_or_disjoint hdisj1, cnt_or_disjoint hdisj2,
    cnt_id_unique hnd he rfl]
  have hB2 : cnt (fun x =>
      ((¬(x.id = e.id)) ∧ x.status = "waiting" ∧ x.position = p - 1) ∧
        (np ≤ p - 1 ∧ p - 1 < e.position)) db =
      if np ≤ p - 1 ∧ p - 1 < e.position then 1 else 0 := by
    by_cases hc2 : np ≤ p - 1 ∧ p - 1 < e.position
    · rw [if_pos hc2]
      rw [cnt_congr (fun x _ => ⟨fun h => h.1, fun h => ⟨h, hc2⟩⟩),
        cntOther_eq hd hnd he hw (p - 1),
        if_pos ⟨by omega, by omega, by omega⟩]
    · rw [if_neg hc2]
      exact cnt_eq_zero (fun x _ hc => hc2 hc.2)
  have hB3 : cnt (fun x =>
      ((¬(x.id = e.id)) ∧ x.status = "waiting" ∧ x.position = p) ∧
        ¬(np ≤ p ∧ p < e.position)) db =
      if np ≤ p ∧ p < e.position then 0
      else if 1 ≤ p ∧ p ≤ (numWaiting db : Int) ∧ p ≠ e.position then 1
      else 0 := by
    by_cases hc3 : np ≤ p ∧ p < e.position
    · rw [if_pos hc3]
      exact cnt_eq_zero (fun x _ hc => hc.2 hc3)
    · rw [if_neg hc3]
      rw [cnt_congr (fun x _ => ⟨fun h => h.1, fun h => ⟨h, hc3⟩⟩)]
      exact cntOther_eq hd hnd he hw p
  rw [hB2, hB3]
  by_cases hnp : np = p
  · rw [if_pos ⟨hw, hnp⟩]
    split_ifs <;> omega
  · rw [if_neg (fun hc => hnp hc.2)]
    split_ifs <;> omega

theorem posCount_move_down {db : List QueueEntry} {e : QueueEntry}
    (hd : DensePositions db) (hnd : NodupIds db) (he : e ∈ db)
    (hw : e.status = "waiting") {np : Int}
    (hhi : np ≤ (numWaiting db : Int)) (hgt : e.position < np) (p : Int) :
    posCount (db.map (moveRowSpec e.id e.position np)) p =
      if 1 ≤ p ∧ p ≤ (numWaiting db : Int) then 1 else 0 := by
  have hb := pos_bounds_of_dense hd he hw
  unfold posCount
  simp only [cnt_map]
  have hpt : ∀ x ∈ db,
      ((moveRowSpec e.id e.position np x).status = "waiting" ∧
        (moveRowSpec e.id e.position np x).position = p) ↔
      ((x.id = e.id ∧ (x.status = "waiting" ∧ np = p)) ∨
       ((((¬(x.id = e.id)) ∧ x.status = "waiting" ∧ x.position = p + 1) ∧
         (e.position < p + 1 ∧ p + 1 ≤ np)) ∨
        (((¬(x.id = e.id)) ∧ x.status = "waiting" ∧ x.position = p) ∧
         ¬(e.position < p ∧ p ≤ np)))) := by
    intro x hx
    rw [moveRowSpec_status, moveRowSpec_position]
    by_cases hid : x.id = e.id <;> by_cases h1 : x.status = "waiting" <;>
      simp [hid, h1, hgt, lt_asymm hgt] <;>
        first
          | omega
          | (split_ifs <;> omega)
  rw [cnt_congr hpt]
  have hdisj1 : ∀ x ∈ db,
      ¬((x.id = e.id ∧ (x.status = "waiting" ∧ np = p)) ∧
        ((((¬(x.id = e.id)) ∧ x.status = "waiting" ∧ x.position = p + 1) ∧
          (e.position < p + 1 ∧ p + 1 ≤ np)) ∨
         (((¬(x.id = e.id)) ∧ x.status = "waiting" ∧ x.position = p) ∧
          ¬(e.position < p ∧ p ≤ np)))) := by
    intro x _ hc
    rcases hc.2 with h | h
    · exact h.1.1 hc.1.1
    · exact h.1.1 hc.1.1
  have hdisj2 : ∀ x ∈ db,
      ¬((((¬(x.id = e.id)) ∧ x.status = "waiting" ∧ x.position = p + 1) ∧
          (e.position < p + 1 ∧ p + 1 ≤ np)) ∧
        (((¬(x.id = e.id)) ∧ x.status = "waiting" ∧ x.position = p) ∧
          ¬(e.position < p ∧ p ≤ np))) := by
    intro x _ hc
    have h1 := hc.1.1.2.2
    have h2 := hc.2.1.2.2
    omega
  rw [cnt_or_disjoint hdisj1, cnt_or_disjoint hdisj2,
    cnt_id_unique hnd he rfl]
  have hB2 : cnt (fun x =>
      ((¬(x.id = e.id)) ∧ x.status = "waiting" ∧ x.position = p + 1) ∧
        (e.position < p + 1 ∧ p + 1 ≤ np)) db =
      if e.position < p + 1 ∧ p + 1 ≤ np then 1 else 0 := by
    by_cases hc2 : e.position < p + 1 ∧ p + 1 ≤ np
    · rw [if_pos hc2]
      rw [cnt_congr (fun x _ => ⟨fun h => h.1, fun h => ⟨h, hc2⟩⟩),
        cntOther_eq hd hnd he hw (p + 1),
        if_pos ⟨by omega, by omega, by omega⟩]
    · rw [if_neg hc2]
      exact cnt_eq_zero (fun x _ hc => hc2 hc.2)
  have hB3 : cnt (fun x =>
      ((¬(x.id = e.id)) ∧ x.status = "waiting" ∧ x.position = p) ∧
        ¬(e.position < p ∧ p ≤ np)) db =
      if e.position < p ∧ p ≤ np then 0
      else if 1 ≤ p ∧ p ≤ (numWaiting db : Int) ∧ p ≠ e.position then 1
      else 0 := by
    by_cases hc3 : e.position < p ∧ p ≤ np
    · rw [if_pos hc3]
      exact cnt_eq_zero (fun x _ hc => hc.2 hc3)
    · rw [if_neg hc3]
      rw [cnt_congr (fun x _ => ⟨fun h => h.1, fun h => ⟨h, hc3⟩⟩)]
      exact cntOther_eq hd hnd he hw p
  rw [hB2, hB3]
  by_cases hnp : np = p
  · rw [if_pos ⟨hw, hnp⟩]
    split_ifs <;> omega
  · rw [if_neg (fun hc => hnp hc.2)]
    split_ifs <;> omega

theorem numWaiting_map_status_preserving {db : List QueueEntry}
    {f : QueueEntry → QueueEntry} (hf : ∀ x, (f x).status = x.status) :
    numWaiting (db.map f) = numWaiting db := by
  unfold numWaiting
  simp only [cnt_map]
  exact cnt_congr (fun x _ => by rw [hf x])

/-- A move of a waiting row to a position in `[1, numWaiting]`
preserves density, id uniqueness and the waiting count. -/
theorem dense_update_queue_position {db : List QueueEntry}
    {e : QueueEntry} (hd : DensePositions db) (hnd : NodupIds db)
    (he : e ∈ db) (hw : e.status = "waiting") {np : Int} (hlo : 1 ≤ np)
    (hhi : np ≤ (numWaiting db : Int)) :
    DensePositions (update_queue_position db e.id np).1 ∧
    NodupIds (update_queue_position db e.id np).1 ∧
    numWaiting (update_queue_position db e.id np).1 = numWaiting db := by
  have h1 : (update_queue_position db e.id np).1 =
      db.map (moveRowSpec e.id e.position np) := by
    rw [update_queue_position_eq_map hnd he np]
  rw [h1]
  have hNW : numWaiting (db.map (moveRowSpec e.id e.position np)) =
      numWaiting db :=
    numWaiting_map_status_preserving (moveRowSpec_status e.id e.position np)
  refine ⟨?_, nodupIds_map (moveRowSpec_id e.id e.position np) hnd, hNW⟩
  intro p
  rw [hNW]
  rcases lt_trichotomy np e.position with hlt | heq | hgt
  · exact posCount_move_up hd hnd he hw hlo hlt p
  · rw [heq, moveRowSpec_self hnd he]
    exact hd p
  · exact posCount_move_down hd hnd he hw hhi hgt p

theorem removeRowSpec_id (eid : Nat) (o : Int) (st : String) (now : Nat)
    (x : QueueEntry) : (removeRowSpec eid o st now x).id = x.id := by
  unfold removeRowSpec
  split_ifs <;> rfl

theorem removeRowSpec_status (eid : Nat) (o : Int) (st : String)
    (now : Nat) (x : QueueEntry) :
    (removeRowSpec eid o st now x).status =
      if x.id = eid then st else x.status := by
  unfold removeRowSpec
  split_ifs <;> rfl

theorem removeRowSpec_position (eid : Nat) (o : Int) (st : String)
    (now : Nat) (x : QueueEntry) :
    (removeRowSpec eid o st now x).position =
      if x.id = eid then x.position
      else if x.status = "waiting" ∧ o < x.position then x.position - 1
      else x.position := by
  unfold removeRowSpec
  split_ifs <;> rfl

theorem numWaiting_remove {db : List QueueEntry} {e : QueueEntry}
    (hnd : NodupIds db) (he : e ∈ db) (hw : e.status = "waiting")
    {outcome : String} (hout : outcome ≠ "waiting") (now : Nat) :
    numWaiting (db.map (removeRowSpec e.id e.position outcome now)) =
      numWaiting db - 1 := by
  unfold numWaiting
  simp only [cnt_map]
  have hpt : ∀ x ∈ db,
      ((removeRowSpec e.id e.position outcome now x).status = "waiting") ↔
      ((¬(x.id = e.id)) ∧ x.status = "waiting") := by
    intro x _
    rw [removeRowSpec_status]
    by_cases hid : x.id = e.id <;> simp [hid, hout]
  rw [cnt_congr hpt]
  have hco : ∀ x ∈ db, (x.status = "waiting") ↔
      ((x.id = e.id ∧ x.status = "waiting") ∨
       ((¬(x.id = e.id)) ∧ x.status = "waiting")) := by
    intro x _
    by_cases hid : x.id = e.id <;> simp [hid]
  have hsplit : cnt (fun x => x.status = "waiting") db =
      cnt (fun x => x.id = e.id ∧ x.status = "waiting") db +
      cnt (fun x => (¬(x.id = e.id)) ∧ x.status = "waiting") db := by
    rw [cnt_congr hco, cnt_or_disjoint (fun x _ hc => hc.2.1 hc.1.1)]
  rw [cnt_id_unique hnd he rfl, if_pos hw] at hsplit
  omega

theorem posCount_remove {db : List QueueEntry} {e : QueueEntry}
    (hd : DensePositions db) (hnd : NodupIds db) (he : e ∈ db)
    (hw : e.status = "waiting") {outcome : String}
    (hout : outcome ≠ "waiting") (now : Nat) (p : Int) :
    posCount (db.map (removeRowSpec e.id e.position outcome now)) p =
      if 1 ≤ p ∧ p ≤ (numWaiting db : Int) - 1 then 1 else 0 := by
  have hb := pos_bounds_of_dense hd he hw
  unfold posCount
  simp only [cnt_map]
  have hpt : ∀ x ∈ db,
      ((removeRowSpec e.id e.position outcome now x).status = "waiting" ∧
        (removeRowSpec e.id e.position outcome now x).position = p) ↔
      ((((¬(x.id = e.id)) ∧ x.status = "waiting" ∧ x.position = p + 1) ∧
         e.position < p + 1) ∨
       (((¬(x.id = e.id)) ∧ x.status = "waiting" ∧ x.position = p) ∧
         ¬(e.position < p))) := by
    intro x hx
    rw [removeRowSpec_status, removeRowSpec_position]
    by_cases hid : x.id = e.id <;> by_cases h1 : x.status = "waiting" <;>
      simp [hid, h1, hout] <;>
        first
          | omega
          | (split_ifs <;> omega)
  rw [cnt_congr hpt]
  have hdisj : ∀ x ∈ db,
      ¬(((((¬(x.id = e.id)) ∧ x.status = "waiting" ∧ x.position = p + 1) ∧
          e.position < p + 1)) ∧
        ((((¬(x.id = e.id)) ∧ x.status = "waiting" ∧ x.position = p) ∧
          ¬(e.position < p)))) := by
    intro x _ hc
    have h1 := hc.1.1.2.2
    have h2 := hc.2.1.2.2
    omega
  rw [cnt_or_disjoint hdisj]
  have hB2 : cnt (fun x =>
      ((¬(x.id = e.id)) ∧ x.status = "waiting" ∧ x.position = p + 1) ∧
        e.position < p + 1) db =
      if e.position < p + 1 then
        (if 1 ≤ p + 1 ∧ p + 1 ≤ (numWaiting db : Int) ∧
          p + 1 ≠ e.position then 1 else 0)
      else 0 := by
    by_cases hc2 : e.position < p + 1
    · rw [if_pos hc2]
      rw [cnt_congr (fun x _ => ⟨fun h => h.1, fun h => ⟨h, hc2⟩⟩)]
      exact cntOther_eq hd hnd he hw (p + 1)
    · rw [if_neg hc2]
      exact cnt_eq_zero (fun x _ hc => hc2 hc.2)
  have hB3 : cnt (fun x =>
      ((¬(x.id = e.id)) ∧ x.status = "waiting" ∧ x.position = p) ∧
        ¬(e.position < p)) db =
      if e.position < p then 0
      else if 1 ≤ p ∧ p ≤ (numWaiting db : Int) ∧ p ≠ e.position then 1
      else 0 := by
    by_cases hc3 : e.position < p
    · rw [if_pos hc3]
      exact cnt_eq_zero (fun x _ hc => hc.2 hc3)
    · rw [if_neg hc3]
      rw [cnt_congr (fun x _ => ⟨fun h => h.1, fun h => ⟨h, hc3⟩⟩)]
      exact cntOther_eq hd hnd he hw p
  rw [hB2, hB3]
  split_ifs <;> omega

/-- Removing an existing waiting row with a non-waiting outcome
preserves density (with one fewer waiting slot) and id uniqueness. -/
theorem dense_remove_from_queue {db : List QueueEntry} {e : QueueEntry}
    (hd : DensePositions db) (hnd : NodupIds db) (he : e ∈ db)
    (hw : e.status = "waiting") {outcome : String}
    (hout : outcome ≠ "waiting") (now : Nat) :
    DensePositions (remove_from_queue db e.id outcome now).1 ∧
    NodupIds (remove_from_queue db e.id outcome now).1 ∧
    numWaiting (remove_from_queue db e.id outcome now).1 =
      numWaiting db - 1 := by
  have h1 : (remove_from_queue db e.id outcome now).1 =
      db.map (removeRowSpec e.id e.position outcome now) := by
    rw [remove_from_queue_eq_map hnd he outcome now]
  rw [h1]
  have hNW := numWaiting_remove hnd he hw hout now
  refine ⟨?_,
    nodupIds_map (removeRowSpec_id e.id e.position outcome now) hnd, hNW⟩
  have hpos : 0 < numWaiting db := cnt_pos_of_mem he hw
  intro p
  rw [hNW, posCount_remove hd hnd he hw hout now p]
  split_ifs <;> omega

theorem dense_applyOp {db : List QueueEntry} {op : LedgerOp}
    (hd : DensePositions db) (hnd : NodupIds db) (hok : OpOK db op) :
    DensePositions (applyOp db op) ∧ NodupIds (applyOp db op) := by
  cases op with
  | insert pid ap q nts did eid tok now =>
    have h := dense_add_to_queue hd hnd pid ap q nts did eid tok now hok
    exact ⟨h.1, h.2.1⟩
  | move eid np =>
    obtain ⟨⟨x, hx, hxid, hxw⟩, hlo, hhi⟩ := hok
    subst hxid
    have h := dense_update_queue_position hd hnd hx hxw hlo hhi
    exact ⟨h.1, h.2.1⟩
  | remove eid outcome now =>
    obtain ⟨⟨x, hx, hxid, hxw⟩, hout⟩ := hok
    subst hxid
    have houtw : outcome ≠ "waiting" := by
      rcases hout with h | h | h <;> rw [h] <;> decide
    have h := dense_remove_from_queue hd hnd hx hxw houtw now
    exact ⟨h.1, h.2.1⟩

theorem dense_applyOps : ∀ (ops : List LedgerOp) (db : List QueueEntry),
    DensePositions db → NodupIds db → OpsOK db ops →
    DensePositions (applyOps db ops) ∧ NodupIds (applyOps db ops) := by
  intro ops
  induction ops with
  | nil =>
    intro db hd hnd _
    exact ⟨hd, hnd⟩
  | cons op rest ih =>
    intro db hd hnd hok
    have h := dense_applyOp hd hnd hok.1
    exact ih (applyOp db op) h.1 h.2 hok.2

theorem opsOK_take : ∀ (ops : List LedgerOp) (db : List QueueEntry)
    (i : Nat), OpsOK db ops → OpsOK db (ops.take i) := by
  intro ops
  induction ops with
  | nil =>
    intro db i _
    rw [List.take_nil]
    exact True.intro
  | cons op rest ih =>
    intro db i hok
    cases i with
    | zero => exact True.intro
    | succ j =>
      rw [List.take_succ_cons]
      exact ⟨hok.1, ih (applyOp db op) j hok.2⟩

/-- C1: starting from the empty table, after every prefix of any
script of in-scope ledger operations — check-in, move of a waiting
row to a position in `[1, N]`, and removal of a waiting row with a
terminal outcome — the multiset of positions of the waiting rows is
exactly `{1, ..., N}` where `N` is the number of waiting rows: no
gaps and no duplicates. -/
theorem density_invariant_sequences (ops : List LedgerOp)
    (hok : OpsOK [] ops) (i : Nat) :
    DensePositions (applyOps [] (ops.take i)) :=
  (dense_applyOps (ops.take i) [] dense_nil nodupIds_nil
    (opsOK_take ops [] i hok)).1

/-- Witness for `density_invariant_sequences` on the concrete
five-operation script `demoOps`. -/
theorem density_invariant_sequences_witness :
    OpsOK [] demoOps ∧ DensePositions (applyOps [] (demoOps.take 5)) :=
  ⟨by decide, density_invariant_sequences demoOps (by decide) 5⟩

theorem map_idTok_of_preserve {db : List QueueEntry}
    {f : QueueEntry → QueueEntry}
    (hf : ∀ x, (f x).id = x.id ∧ (f x).token = x.token) :
    (db.map f).map idTok = db.map idTok := by
  rw [List.map_map]
  refine List.map_congr_left (fun x _ => ?_)
  show idTok (f x) = idTok x
  unfold idTok
  rw [(hf x).1, (hf x).2]

theorem shiftUpRow_idTok (eid : Nat) (o n : Int) (x : QueueEntry) :
    (shiftUpRow eid o n x).id = x.id ∧
    (shiftUpRow eid o n x).token = x.token := by
  unfold shiftUpRow
  split_ifs <;> exact ⟨rfl, rfl⟩

theorem shiftDownRow_idTok (eid : Nat) (o n : Int) (x : QueueEntry) :
    (shiftDownRow eid o n x).id = x.id ∧
    (shiftDownRow eid o n x).token = x.token := by
  unfold shiftDownRow
  split_ifs <;> exact ⟨rfl, rfl⟩

theorem setPosRow_idTok (eid : Nat) (n : Int) (x : QueueEntry) :
    (setPosRow eid n x).id = x.id ∧
    (setPosRow eid n x).token = x.token := by
  unfold setPosRow
  split_ifs <;> exact ⟨rfl, rfl⟩

theorem stampRow_idTok (eid : Nat) (st : String) (now : Nat)
    (x : QueueEntry) :
    (stampRow eid st now x).id = x.id ∧
    (stampRow eid st now x).token = x.token := by
  unfold stampRow
  split_ifs <;> exact ⟨rfl, rfl⟩

theorem closeGapRow_idTok (o : Int) (x : QueueEntry) :
    (closeGapRow o x).id = x.id ∧ (closeGapRow o x).token = x.token := by
  unfold closeGapRow
  split_ifs <;> exact ⟨rfl, rfl⟩

theorem update_queue_position_idTok (db : List QueueEntry) (eid : Nat)
    (np : Int) :
    ((update_queue_position db eid np).1).map idTok = db.map idTok := by
  cases h : findById db eid with
  | none => simp only [update_queue_position, h]
  | some e =>
    simp only [update_queue_position, h]
    by_cases heq : e.position = np
    · rw [if_pos heq]
    · rw [if_neg heq]
      by_cases hlt : np < e.position
      · rw [if_pos hlt,
          map_idTok_of_preserve (setPosRow_idTok eid np),
          map_idTok_of_preserve (shiftUpRow_idTok eid e.position np)]
      · rw [if_neg hlt,
          map_idTok_of_preserve (setPosRow_idTok eid np),
          map_idTok_of_preserve (shiftDownRow_idTok eid e.position np)]

theorem remove_from_queue_idTok (db : List QueueEntry) (eid : Nat)
    (outcome : String) (now : Nat) :
    ((remove_from_queue db eid outcome now).1).map idTok =
      db.map idTok := by
  cases h : findById db eid with
  | none => simp only [remove_from_queue, h]
  | some e =>
    simp only [remove_from_queue, h]
    rw [map_idTok_of_preserve (closeGapRow_idTok e.position),
      map_idTok_of_preserve (stampRow_idTok eid outcome now)]

theorem mark_called_in_idTok (db : List QueueEntry) (eid : Nat)
    (t : Nat) : (mark_called_in db eid t).map idTok = db.map idTok := by
  unfold mark_called_in
  refine map_idTok_of_preserve (fun x => ?_)
  split_ifs <;> exact ⟨rfl, rfl⟩

theorem update_waiting_outside_idTok (db : List QueueEntry) (eid : Nat)
    (flag : Bool) :
    ((update_waiting_outside db eid flag).1).map idTok =
      db.map idTok := by
  unfold update_waiting_outside
  refine map_idTok_of_preserve (fun x => ?_)
  split_ifs <;> exact ⟨rfl, rfl⟩

theorem mark_notified_idTok (db : List QueueEntry) (eid : Nat) :
    (mark_notified db eid).map idTok = db.map idTok := by
  unfold mark_notified
  refine map_idTok_of_preserve (fun x => ?_)
  split_ifs <;> exact ⟨rfl, rfl⟩

theorem nodupTokens_cons {a : QueueEntry} {l : List QueueEntry} :
    NodupTokens (a :: l) ↔
      (∀ x ∈ l, x.token ≠ a.token) ∧ NodupTokens l := by
  simp only [NodupTokens, List.map_cons, List.nodup_cons, List.mem_map]
  constructor
  · rintro ⟨h1, h2⟩
    exact ⟨fun x hx heq => h1 ⟨x, hx, heq⟩, h2⟩
  · rintro ⟨h1, h2⟩
    refine ⟨fun hex => ?_, h2⟩
    obtain ⟨x, hx, heq⟩ := hex
    exact h1 x hx heq

theorem get_by_token_eq_some {db : List QueueEntry} {e : QueueEntry}
    (hnt : NodupTokens db) (he : e ∈ db) (hw : e.status = "waiting") :
    get_queue_entry_by_token db e.token = some e := by
  induction db with
  | nil => cases he
  | cons a l ih =>
    obtain ⟨hnotin, hnt2⟩ := nodupTokens_cons.mp hnt
    by_cases hae : a = e
    · subst hae
      simp [get_queue_entry_by_token, List.find?, hw]
    · have hel : e ∈ l := by
        rcases List.mem_cons.mp he with h | h
        · exact absurd h.symm hae
        · exact h
      have hfalse : (a.token == e.token && a.status == "waiting") =
          false := by
        have hne : ¬ (a.token = e.token) := fun hc => hnotin e hel hc.symm
        simp [hne]
      have hstep : get_queue_entry_by_token (a :: l) e.token =
          get_queue_entry_by_token l e.token := by
        simp [get_queue_entry_by_token, List.find?, hfalse]
      rw [hstep]
      exact ih hnt2 hel

theorem get_by_token_none {db : List QueueEntry} {tok : String}
    (h : ∀ x ∈ db, x.token = tok → x.status ≠ "waiting") :
    get_queue_entry_by_token db tok = none := by
  unfold get_queue_entry_by_token
  rw [List.find?_eq_none]
  intro x hx
  simp only [Bool.and_eq_true, beq_iff_eq, not_and]
  intro htok hw
  exact h x hx htok hw

/-- C9: a row's token is unchanged (row by row, keyed by id) by every
move, call-in, removal, waiting-outside and notified-flag operation;
while a row is waiting, resolving its token returns exactly that row
(tokens are unique by the schema's UNIQUE constraint); and a token
all of whose rows are non-waiting — in particular a terminal row's
token, or an unknown token — resolves to NotFound. -/
theorem token_immutable_and_resolution (db : List QueueEntry)
    (entry_id : Nat) (np : Int) (outcome : String) (now t : Nat)
    (flag : Bool) (e : QueueEntry) (tok : String) :
    ((update_queue_position db entry_id np).1).map idTok =
      db.map idTok ∧
    (mark_called_in db entry_id t).map idTok = db.map idTok ∧
    ((remove_from_queue db entry_id outcome now).1).map idTok =
      db.map idTok ∧
    ((update_waiting_outside db entry_id flag).1).map idTok =
      db.map idTok ∧
    (mark_notified db entry_id).map idTok = db.map idTok ∧
    (NodupTokens db → e ∈ db → e.status = "waiting" →
      get_queue_entry_by_token db e.token = some e) ∧
    ((∀ x ∈ db, x.token = tok → x.status ≠ "waiting") →
      get_queue_entry_by_token db tok = none) :=
  ⟨update_queue_position_idTok db entry_id np,
   mark_called_in_idTok db entry_id t,
   remove_from_queue_idTok db entry_id outcome now,
   update_waiting_outside_idTok db entry_id flag,
   mark_notified_idTok db entry_id,
   fun hnt he hw => get_by_token_eq_some hnt he hw,
   fun h => get_by_token_none h⟩

/-- Witness for `token_immutable_and_resolution`: in a table with a
waiting row and a completed row, the waiting row's token resolves to
it and the completed row's token resolves to NotFound. -/
theorem token_immutable_and_resolution_witness :
    NodupTokens [exWaiting, exCompleted] ∧
    get_queue_entry_by_token [exWaiting, exCompleted] exWaiting.token =
      some exWaiting ∧
    get_queue_entry_by_token [exWaiting, exCompleted] exCompleted.token =
      none :=
  ⟨by decide,
    (token_immutable_and_resolution [exWaiting, exCompleted] 1 2
      "completed" 9 9 true exWaiting "tokB").2.2.2.2.2.1
      (by decide) (by decide) (by decide),
    (token_immutable_and_resolution [exWaiting, exCompleted] 1 2
      "completed" 9 9 true exWaiting "tokB").2.2.2.2.2.2
      (by decide)⟩
